import Mathlib

/-!
# Shallow embedding of the `rebytes` library (Go)

The repository provides two components:

* `Pool` (pool.go): a bounded pool of fixed-capacity byte slices.
* `Buffer` (buffer.go): a chunked dynamic byte buffer whose chunks are
  borrowed from a `Pool`.

A Go `[]byte` is modelled by `Bytes`: `id` stands for the identity of the
backing array (two slices share underlying memory iff they share `id`),
`data` is the slice content up to its length, and `cap` the slice capacity.
Go runtime panics (index out of range, slice bounds, integer divide by zero,
and the explicit `panic(ErrTooLarge)`) are modelled by the `GoPanic` error of
an `Except`.  Methods on `*Pool` / `*Buffer` return their updated receiver.
-/

/-- Kinds of Go runtime aborts the code can hit. -/
inductive GoPanic where
  | indexOutOfRange
  | sliceBounds
  | divideByZero
  | tooLarge
deriving DecidableEq, Repr

/-- A Go `[]byte`: backing-array identity, contents (one `Nat` per byte,
values < 256 are not enforced since the code never depends on it), and
capacity. -/
structure Bytes where
  id : Nat
  data : List Nat
  cap : Nat
deriving DecidableEq, Repr, Inhabited

/-- `Pool` from pool.go: stack of idle slices (`slices`, top at the end, as in
the Go code which appends and pops at the end), the configured slice capacity
`bytesCap`, the pool capacity `poolCap`.  `nextId` is the allocator state used
to hand out fresh backing-array identities. -/
structure Pool where
  slices : List Bytes
  bytesCap : Nat
  poolCap : Nat
  nextId : Nat
deriving DecidableEq, Repr, Inhabited

/-- `NewPool(bytesCap, poolCap)`: empty pool. -/
def NewPool (bytesCap poolCap : Nat) : Pool :=
  { slices := [], bytesCap := bytesCap, poolCap := poolCap, nextId := 0 }

/-- `Pool.Get`: pop the most recently stored slice if available, otherwise
make a fresh slice of length 0 and capacity `bytesCap`. -/
def Pool.Get (p : Pool) : Bytes × Pool :=
  match p.slices.getLast? with
  | some b => (b, { p with slices := p.slices.dropLast })
  | none =>
      ({ id := p.nextId, data := [], cap := p.bytesCap },
       { p with nextId := p.nextId + 1 })

/-- Errors returned by `Pool.Put`. -/
inductive PutError where
  | nilValue
  | wrongCapacity
deriving DecidableEq, Repr

/-- `Pool.Put(b)`: error on `nil`; error on wrong capacity; silently drop the
slice when the pool is full; otherwise reslice to length 0 and push. -/
def Pool.Put (p : Pool) (b : Option Bytes) : Pool × Option PutError :=
  match b with
  | none => (p, some PutError.nilValue)
  | some b =>
      if b.cap ≠ p.bytesCap then (p, some PutError.wrongCapacity)
      else if p.slices.length = p.poolCap then (p, none)
      else ({ p with slices := p.slices ++ [{ b with data := [] }] }, none)

/-- `Pool.Size`: number of idle slices. -/
def Pool.Size (p : Pool) : Nat :=
  p.slices.length

/-- `Buffer` from buffer.go: the associated pool, the sequential read
`offset`, the list of `chunks`, and `chunkCap` captured at construction. -/
structure Buffer where
  pool : Pool
  offset : Nat
  chunks : List Bytes
  chunkCap : Nat
deriving DecidableEq, Repr, Inhabited

/-- `NewBuffer(pool)`: error on `nil` pool; otherwise get one chunk from the
pool and record its capacity as `chunkCap`. -/
def NewBuffer (pool : Option Pool) : Except String Buffer :=
  match pool with
  | none => Except.error "cannot pass nil to rebytes.NewBuffer()"
  | some pool =>
      Except.ok
        { pool := (pool.Get).2, offset := 0,
          chunks := [(pool.Get).1], chunkCap := (pool.Get).1.cap }

/-- Errors carried by the `error` result of `Read`/`ReadAt`: `io.EOF` and the
"can't read from buffer after Free()" error. -/
inductive ReadError where
  | eof
  | closed
deriving DecidableEq, Repr

/-- The "can't write to buffer after Free()" error of `Write`. -/
inductive WriteError where
  | closed
deriving DecidableEq, Repr

/-- `Buffer.findReadLocation(offset)`: the chunk at `offset / chunkCap`
together with the intra-chunk offset `offset % chunkCap`.  Dividing by a zero
`chunkCap` or indexing outside `chunks` is a Go runtime panic. -/
def Buffer.findReadLocation (b : Buffer) (offset : Nat) :
    Except GoPanic (Bytes × Nat) :=
  if b.chunkCap = 0 then Except.error GoPanic.divideByZero
  else if h : offset / b.chunkCap < b.chunks.length then
    Except.ok (b.chunks.get ⟨offset / b.chunkCap, h⟩, offset % b.chunkCap)
  else Except.error GoPanic.indexOutOfRange

/-- `Buffer.Chunks`: number of chunks held. -/
def Buffer.Chunks (b : Buffer) : Nat :=
  b.chunks.length

/-- The written content of a chunk list: the concatenation of the chunks'
data. -/
def chunksContent (l : List Bytes) : List Nat :=
  (l.map Bytes.data).flatten

/-- `Buffer.String`: the concatenation of all chunk contents (as bytes). -/
def Buffer.String (b : Buffer) : List Nat :=
  chunksContent b.chunks

/-- `Buffer.Free`: return every chunk to the pool (ignoring `Put` errors, as
the Go code does) and clear the chunk list. -/
def Buffer.Free (b : Buffer) : Buffer :=
  { b with
    pool := b.chunks.foldl (fun pl s => (pl.Put (some s)).1) b.pool,
    chunks := [] }

/-- The loop of `readFromOffset`: while fewer than `plen` bytes have been
delivered, locate the chunk for `off`, signal `io.EOF` when the intra-chunk
offset sits exactly at the chunk's length, panic when it sits beyond it
(Go slice-bounds panic on `(*s)[i:]`), otherwise copy
`min (plen - n) (chunk length - i)` bytes.  `acc` accumulates the bytes
copied into the destination so far (the Go code writes them to `p[n:]`). -/
def Buffer.readLoop (b : Buffer) (plen off n : Nat) (acc : List Nat) :
    Except GoPanic (Nat × Option ReadError × List Nat) :=
  if h : n < plen then
    match b.findReadLocation off with
    | Except.error e => Except.error e
    | Except.ok (s, i) =>
        if i = s.data.length then Except.ok (n, some ReadError.eof, acc)
        else if s.data.length < i then Except.error GoPanic.sliceBounds
        else
          b.readLoop plen (off + min (plen - n) (s.data.length - i))
            (n + min (plen - n) (s.data.length - i))
            (acc ++ (s.data.drop i).take (min (plen - n) (s.data.length - i)))
  else Except.ok (n, none, acc)
termination_by plen - n
decreasing_by omega

/-- `Buffer.readFromOffset(p, off)`: closed-buffer check, then the read loop;
the final destination contents are the copied bytes followed by the untouched
tail of `p`. -/
def Buffer.readFromOffset (b : Buffer) (p : List Nat) (off : Nat) :
    Except GoPanic (Nat × Option ReadError × List Nat) :=
  if b.chunks.length = 0 then Except.ok (0, some ReadError.closed, p)
  else
    match b.readLoop p.length off 0 [] with
    | Except.error e => Except.error e
    | Except.ok (n, e, acc) => Except.ok (n, e, acc ++ p.drop acc.length)

/-- `Buffer.Read(p)`: `readFromOffset` at the cursor, then advance the cursor
by the count read. -/
def Buffer.Read (b : Buffer) (p : List Nat) :
    Except GoPanic (Buffer × Nat × Option ReadError × List Nat) :=
  match b.readFromOffset p b.offset with
  | Except.error e => Except.error e
  | Except.ok (n, e, q) => Except.ok ({ b with offset := b.offset + n }, n, e, q)

/-- `Buffer.ReadAt(p, off)`: `readFromOffset` at an explicit offset; the
buffer is not returned because the Go method never writes to it. -/
def Buffer.ReadAt (b : Buffer) (p : List Nat) (off : Nat) :
    Except GoPanic (Nat × Option ReadError × List Nat) :=
  b.readFromOffset p off

/-- `moveBytes(dst, src)`: destructively copy from `src` into `dst`'s unused
capacity; nothing to do on empty `src`; `panic(ErrTooLarge)` when `dst` has
no remaining capacity; otherwise move `min (len src) (cap - len)` bytes and
drop them from `src`. -/
def moveBytes (dst : Bytes) (src : List Nat) :
    Except GoPanic (Bytes × List Nat × Nat) :=
  if src.length = 0 then Except.ok (dst, src, 0)
  else if dst.cap - dst.data.length = 0 then Except.error GoPanic.tooLarge
  else
    Except.ok
      ({ dst with
         data := dst.data ++ src.take (min src.length (dst.cap - dst.data.length)) },
       src.drop (min src.length (dst.cap - dst.data.length)),
       min src.length (dst.cap - dst.data.length))

/-- `Buffer.findWritableChunk`: the tail chunk, or a fresh chunk from the
pool appended after it when the tail has no unused capacity.  Indexing
`chunks[len-1]` of an empty chunk list is a Go runtime panic (the callers
guard against it). -/
def Buffer.findWritableChunk (b : Buffer) : Except GoPanic Buffer :=
  match b.chunks.getLast? with
  | none => Except.error GoPanic.indexOutOfRange
  | some w =>
      if w.cap - w.data.length = 0 then
        Except.ok
          { b with pool := (b.pool.Get).2, chunks := b.chunks ++ [(b.pool.Get).1] }
      else Except.ok b

/-- The loop of `Buffer.Write`: while source bytes remain, find a writable
chunk and move bytes into it (the Go code mutates the tail chunk through the
returned pointer, modelled by replacing the last chunk). -/
def Buffer.writeLoop (b : Buffer) (p : List Nat) (n : Nat) :
    Except GoPanic (Buffer × Nat) :=
  if h : 0 < p.length then
    match b.findWritableChunk with
    | Except.error e => Except.error e
    | Except.ok b1 =>
        match h2 : moveBytes (b1.chunks.getLastD default) p with
        | Except.error e => Except.error e
        | Except.ok (w, p1, x) =>
            Buffer.writeLoop { b1 with chunks := b1.chunks.dropLast ++ [w] } p1 (n + x)
  else Except.ok (b, n)
termination_by p.length
decreasing_by
  unfold moveBytes at h2
  rw [if_neg (by omega)] at h2
  by_cases hr : (b1.chunks.getLastD default).cap - (b1.chunks.getLastD default).data.length = 0
  · rw [if_pos hr] at h2
    exact absurd h2 (by simp)
  · rw [if_neg hr] at h2
    simp only [Except.ok.injEq, Prod.mk.injEq] at h2
    obtain ⟨-, hp1, -⟩ := h2
    subst hp1
    simp only [List.length_drop]
    omega

/-- `Buffer.Write(p)`: closed-buffer check, then the write loop. -/
def Buffer.Write (b : Buffer) (p : List Nat) :
    Except GoPanic (Buffer × Nat × Option WriteError) :=
  if b.chunks.length = 0 then Except.ok (b, 0, some WriteError.closed)
  else
    match b.writeLoop p 0 with
    | Except.error e => Except.error e
    | Except.ok (b1, n) => Except.ok (b1, n, none)

/-- `Buffer.WriteString(s)`: `Write` over the byte representation; byte
strings are already modelled as `List Nat`, so this is `Write`. -/
def Buffer.WriteString (b : Buffer) (s : List Nat) :
    Except GoPanic (Buffer × Nat × Option WriteError) :=
  b.Write s

/-! ## Well-formedness predicates and operation sequences -/

/-- Pool invariant: every idle slice has length 0 and the configured
capacity, and the idle count never exceeds the pool capacity. -/
def PoolWF (p : Pool) : Prop :=
  (∀ s ∈ p.slices, s.data = [] ∧ s.cap = p.bytesCap) ∧
    p.slices.length ≤ p.poolCap

instance (p : Pool) : Decidable (PoolWF p) := by
  unfold PoolWF
  infer_instance

/-- One pool operation: a `Get`, or a `Put` of an optional slice. -/
inductive PoolOp where
  | get
  | put (b : Option Bytes)

/-- Apply one operation to a pool, keeping only the pool state. -/
def applyOp (p : Pool) (op : PoolOp) : Pool :=
  match op with
  | PoolOp.get => (p.Get).2
  | PoolOp.put b => (p.Put b).1

/-- Run a sequence of pool operations. -/
def runOps (p : Pool) (ops : List PoolOp) : Pool :=
  ops.foldl applyOp p

/-- Chunk-list invariant of a buffer: every chunk has capacity `cap`, every
chunk but the last is full, and the last chunk's length is at most `cap`. -/
def ChunksWF (cap : Nat) : List Bytes → Prop
  | [] => True
  | c :: rest =>
      c.cap = cap ∧
        (if rest.isEmpty then c.data.length ≤ cap else c.data.length = cap) ∧
        ChunksWF cap rest

def decChunksWF (cap : Nat) : (l : List Bytes) → Decidable (ChunksWF cap l)
  | [] => isTrue trivial
  | c :: rest =>
      have : Decidable (ChunksWF cap rest) := decChunksWF cap rest
      inferInstanceAs (Decidable (_ ∧ _ ∧ _))

instance (cap : Nat) (l : List Bytes) : Decidable (ChunksWF cap l) :=
  decChunksWF cap l

/-- Buffer invariant: positive chunk capacity, at least one chunk (the
`Active` state), a well-formed chunk list, a well-formed pool of the same
slice capacity, and a cursor within the written data. -/
def Buffer.WF (b : Buffer) : Prop :=
  0 < b.chunkCap ∧ b.chunks ≠ [] ∧ ChunksWF b.chunkCap b.chunks ∧
    PoolWF b.pool ∧ b.pool.bytesCap = b.chunkCap ∧
    b.offset ≤ b.String.length

instance (b : Buffer) : Decidable (b.WF) := by
  unfold Buffer.WF
  infer_instance

/-! ## Concrete fixtures (the configuration of the repository's tests) -/

/-- The pool of the buffer tests: slice capacity 5, pool capacity 100. -/
def pool5 : Pool := NewPool 5 100

/-- A fresh buffer over `pool5`. -/
def freshBuf : Buffer :=
  match NewBuffer (some pool5) with
  | Except.ok b => b
  | Except.error _ => default

/-- The bytes of `"hello world"`. -/
def hw : List Nat := [104, 101, 108, 108, 111, 32, 119, 111, 114, 108, 100]

/-- The literal value of the buffer obtained by writing `"hello world"` into
`freshBuf` (proved below in `freshBuf_Write_hw`). -/
def bufHW : Buffer :=
  { pool := { slices := [], bytesCap := 5, poolCap := 100, nextId := 3 },
    offset := 0,
    chunks := [⟨0, [104, 101, 108, 108, 111], 5⟩,
               ⟨1, [32, 119, 111, 114, 108], 5⟩,
               ⟨2, [100], 5⟩],
    chunkCap := 5 }

/-- The literal value of the buffer obtained by writing exactly 5 bytes into
`freshBuf`, so that its single chunk is completely full. -/
def buf5 : Buffer :=
  { pool := { slices := [], bytesCap := 5, poolCap := 100, nextId := 1 },
    offset := 0,
    chunks := [⟨0, [1, 2, 3, 4, 5], 5⟩],
    chunkCap := 5 }

/-- A fresh buffer over a pool with slice capacity 0. -/
def buf0 : Buffer :=
  match NewBuffer (some (NewPool 0 10)) with
  | Except.ok b => b
  | Except.error _ => default

/-! ## Pool lemmas -/

/-- `Pool.Get` on a well-formed pool: the returned slice has length 0 and the
configured capacity, and the pool invariant and configuration survive. -/
theorem Pool_Get_spec (p : Pool) (h : PoolWF p) :
    (p.Get).1.data = [] ∧ (p.Get).1.cap = p.bytesCap ∧
      PoolWF (p.Get).2 ∧ (p.Get).2.bytesCap = p.bytesCap ∧
      (p.Get).2.poolCap = p.poolCap := by
  obtain ⟨hmem, hlen⟩ := h
  unfold Pool.Get
  cases hl : p.slices.getLast? with
  | none =>
      refine ⟨rfl, rfl, ⟨hmem, hlen⟩, rfl, rfl⟩
  | some b =>
      have hb := hmem b (List.mem_of_mem_getLast? hl)
      refine ⟨hb.1, hb.2, ⟨?_, ?_⟩, rfl, rfl⟩
      · intro s hs
        exact hmem s ((List.dropLast_sublist p.slices).mem hs)
      · simp only [List.length_dropLast]
        omega

/-- `Pool.Put` preserves the pool invariant and configuration. -/
theorem Pool_Put_wf (p : Pool) (b : Option Bytes) (h : PoolWF p) :
    PoolWF (p.Put b).1 ∧ (p.Put b).1.bytesCap = p.bytesCap ∧
      (p.Put b).1.poolCap = p.poolCap := by
  obtain ⟨hmem, hlen⟩ := h
  cases b with
  | none => exact ⟨⟨hmem, hlen⟩, rfl, rfl⟩
  | some b =>
      simp only [Pool.Put]
      by_cases hc : b.cap ≠ p.bytesCap
      · rw [if_pos hc]
        exact ⟨⟨hmem, hlen⟩, rfl, rfl⟩
      · rw [if_neg hc]
        by_cases hfull : p.slices.length = p.poolCap
        · rw [if_pos hfull]
          exact ⟨⟨hmem, hlen⟩, rfl, rfl⟩
        · rw [if_neg hfull]
          refine ⟨⟨?_, ?_⟩, rfl, rfl⟩
          · intro s hs
            rcases List.mem_append.mp hs with hs | hs
            · exact hmem s hs
            · simp only [List.mem_singleton] at hs
              subst hs
              exact ⟨rfl, not_ne_iff.mp hc⟩
          · simp only [List.length_append, List.length_singleton]
            omega

/-- A single pool operation preserves the pool invariant and configuration. -/
theorem applyOp_wf (p : Pool) (op : PoolOp) (h : PoolWF p) :
    PoolWF (applyOp p op) ∧ (applyOp p op).bytesCap = p.bytesCap ∧
      (applyOp p op).poolCap = p.poolCap := by
  cases op with
  | get =>
      obtain ⟨-, -, h1, h2, h3⟩ := Pool_Get_spec p h
      exact ⟨h1, h2, h3⟩
  | put b => exact Pool_Put_wf p b h

/-- Any sequence of pool operations preserves the pool invariant. -/
theorem runOps_wf (ops : List PoolOp) (p : Pool) (h : PoolWF p) :
    PoolWF (runOps p ops) := by
  induction ops generalizing p with
  | nil => exact h
  | cons op ops ih =>
      exact ih (applyOp p op) (applyOp_wf p op h).1

/-- Any sequence of pool operations also preserves the pool configuration. -/
theorem runOps_preserves (ops : List PoolOp) (p : Pool) (h : PoolWF p) :
    PoolWF (runOps p ops) ∧ (runOps p ops).bytesCap = p.bytesCap ∧
      (runOps p ops).poolCap = p.poolCap := by
  induction ops generalizing p with
  | nil => exact ⟨h, rfl, rfl⟩
  | cons op ops ih =>
      obtain ⟨h1, h2, h3⟩ := applyOp_wf p op h
      obtain ⟨g1, g2, g3⟩ := ih (applyOp p op) h1
      exact ⟨g1, g2.trans h2, g3.trans h3⟩

/-- Every chunk of a well-formed chunk list has the configured capacity. -/
theorem chunksWF_mem_cap (cap : Nat) (l : List Bytes) (h : ChunksWF cap l) :
    ∀ c ∈ l, c.cap = cap := by
  induction l with
  | nil => intro c hc; cases hc
  | cons a l ih =>
      obtain ⟨h1, _, h3⟩ := h
      intro c hc
      rcases List.mem_cons.mp hc with rfl | hc
      · exact h1
      · exact ih h3 c hc

/-- Folding `Put` over chunks of the right capacity grows the pool by one
slice per chunk as long as the pool has room. -/
theorem foldl_put_size (l : List Bytes) (q : Pool)
    (hcap : ∀ c ∈ l, c.cap = q.bytesCap)
    (hroom : q.slices.length + l.length ≤ q.poolCap) :
    (l.foldl (fun pl s => (pl.Put (some s)).1) q).Size = q.Size + l.length := by
  induction l generalizing q with
  | nil => simp [Pool.Size]
  | cons c l ih =>
      have hc : c.cap = q.bytesCap := hcap c (List.mem_cons_self c l)
      have hq' : (q.Put (some c)).1 =
          { q with slices := q.slices ++ [{ c with data := [] }] } := by
        simp only [Pool.Put]
        rw [if_neg (by simp [hc]), if_neg (by simp at hroom ⊢; omega)]
      rw [List.foldl_cons, hq']
      rw [ih { q with slices := q.slices ++ [{ c with data := [] }] }
        (by intro d hd; exact hcap d (List.mem_cons_of_mem c hd))
        (by simp at hroom ⊢; omega)]
      simp [Pool.Size]
      omega

/-! ## Claim theorems: pool claims -/

/-- C4: for every pool configuration and every sequence of get/put
operations, every slice held idle has length 0 and capacity `itemCapacity`,
and the idle count never exceeds `maxIdle`; moreover a put of a valid slice
into a full pool returns success while leaving the pool state, and hence its
size, unchanged. -/
theorem pool_invariants_and_full_put_noop (bytesCap poolCap : Nat)
    (ops : List PoolOp) (p : Pool) (x : Bytes)
    (hx : x.cap = p.bytesCap) (hfull : p.slices.length = p.poolCap) :
    (∀ s ∈ (runOps (NewPool bytesCap poolCap) ops).slices,
        s.data = [] ∧ s.cap = bytesCap) ∧
    (runOps (NewPool bytesCap poolCap) ops).slices.length ≤ poolCap ∧
    p.Put (some x) = (p, none) ∧ (p.Put (some x)).1.Size = p.Size := by
  have h0 : PoolWF (NewPool bytesCap poolCap) :=
    ⟨fun s hs => absurd hs (List.not_mem_nil s), Nat.zero_le _⟩
  obtain ⟨⟨g1, g2⟩, gb, gp⟩ := runOps_preserves ops (NewPool bytesCap poolCap) h0
  have hput : p.Put (some x) = (p, none) := by
    simp only [Pool.Put]
    rw [if_neg (by simp [hx]), if_pos hfull]
  refine ⟨?_, ?_, hput, by rw [hput]⟩
  · intro s hs
    obtain ⟨d1, d2⟩ := g1 s hs
    exact ⟨d1, by rw [d2, gb]; rfl⟩
  · have := g2
    rw [gp] at this
    simpa [NewPool] using this

/-- C4 witness at a concrete operation sequence and a concrete full pool. -/
theorem pool_invariants_and_full_put_noop_witness :
    ((∀ s ∈ (runOps (NewPool 5 2) [PoolOp.get,
        PoolOp.put (some ⟨0, [1, 2], 5⟩), PoolOp.put (some ⟨7, [], 5⟩),
        PoolOp.put (some ⟨8, [], 5⟩), PoolOp.put (some ⟨9, [], 4⟩)]).slices,
        s.data = [] ∧ s.cap = 5) ∧
      (runOps (NewPool 5 2) [PoolOp.get,
        PoolOp.put (some ⟨0, [1, 2], 5⟩), PoolOp.put (some ⟨7, [], 5⟩),
        PoolOp.put (some ⟨8, [], 5⟩), PoolOp.put (some ⟨9, [], 4⟩)]).slices.length ≤ 2 ∧
      (NewPool 5 0).Put (some ⟨0, [], 5⟩) = (NewPool 5 0, none) ∧
      ((NewPool 5 0).Put (some ⟨0, [], 5⟩)).1.Size = (NewPool 5 0).Size) :=
  pool_invariants_and_full_put_noop 5 2 _ (NewPool 5 0) ⟨0, [], 5⟩
    (by decide) (by decide)

/-- C7 (amended): when the pool is not yet full, `put(x)` of a slice with the
configured capacity succeeds, and an immediately following `get` returns the
very slice just stored — same backing memory (`id`), same capacity, length
reset to 0 — leaving the previously idle slices untouched. -/
theorem put_then_get_lifo (p : Pool) (x : Bytes)
    (hcap : x.cap = p.bytesCap) (hroom : p.slices.length < p.poolCap) :
    (p.Put (some x)).2 = none ∧
    ((p.Put (some x)).1.Get).1 = { x with data := [] } ∧
    ((p.Put (some x)).1.Get).2.slices = p.slices := by
  have hput : p.Put (some x) =
      ({ p with slices := p.slices ++ [{ x with data := [] }] }, none) := by
    simp only [Pool.Put]
    rw [if_neg (by simp [hcap]), if_neg (by omega)]
  rw [hput]
  refine ⟨rfl, ?_, ?_⟩
  · simp [Pool.Get, List.getLast?_concat]
  · simp [Pool.Get, List.getLast?_concat, List.dropLast_concat]

/-- C7 witness: a pool with room, holding one idle slice. -/
theorem put_then_get_lifo_witness :
    (({ slices := [⟨5, [], 7⟩], bytesCap := 7, poolCap := 3, nextId := 6 } :
        Pool).Put (some ⟨9, [1, 2], 7⟩)).2 = none ∧
    ((({ slices := [⟨5, [], 7⟩], bytesCap := 7, poolCap := 3, nextId := 6 } :
        Pool).Put (some ⟨9, [1, 2], 7⟩)).1.Get).1 = ⟨9, [], 7⟩ ∧
    ((({ slices := [⟨5, [], 7⟩], bytesCap := 7, poolCap := 3, nextId := 6 } :
        Pool).Put (some ⟨9, [1, 2], 7⟩)).1.Get).2.slices = [⟨5, [], 7⟩] :=
  put_then_get_lifo _ _ (by decide) (by decide)

/-- C7 counterexample: with a full pool (`maxIdle = 0`), putting the
correctly-sized slice obtained from `get` and then getting again yields a
slice backed by different memory (a fresh allocation), so the claim fails
without the "pool not full" proviso.  The second conjunct records that the
slice had the configured capacity, the third that its put reported success. -/
theorem put_then_get_full_pool_cex :
    ((((NewPool 5 0).Get).2.Put (some ((NewPool 5 0).Get).1)).1.Get).1.id ≠
      ((NewPool 5 0).Get).1.id ∧
    ((NewPool 5 0).Get).1.cap = ((NewPool 5 0).Get).2.bytesCap ∧
    (((NewPool 5 0).Get).2.Put (some ((NewPool 5 0).Get).1)).2 = none := by
  decide

/-! ## Claim theorems: error paths and the Closed state -/

/-- C6: every `InvalidArgument` failure (put of nil, put of a wrong-capacity
slice, construction from a nil pool) and every `ClosedResource` failure
(read, readAt, write on a freed buffer) returns its error with the pool,
the buffer, and the destination exactly as before the call. -/
theorem error_paths_no_side_effects (p : Pool) (x : Bytes) (b : Buffer)
    (dest : List Nat) (off : Nat)
    (hx : x.cap ≠ p.bytesCap) (hb : b.chunks = []) :
    p.Put none = (p, some PutError.nilValue) ∧
    p.Put (some x) = (p, some PutError.wrongCapacity) ∧
    NewBuffer none = Except.error "cannot pass nil to rebytes.NewBuffer()" ∧
    b.ReadAt dest off = Except.ok (0, some ReadError.closed, dest) ∧
    b.Read dest = Except.ok (b, 0, some ReadError.closed, dest) ∧
    b.Write dest = Except.ok (b, 0, some WriteError.closed) := by
  have hlen : b.chunks.length = 0 := by rw [hb]; rfl
  have hro : b.readFromOffset dest off = Except.ok (0, some ReadError.closed, dest) := by
    unfold Buffer.readFromOffset
    rw [if_pos hlen]
  refine ⟨rfl, ?_, rfl, ?_, ?_, ?_⟩
  · simp only [Pool.Put]
    rw [if_pos hx]
  · exact hro
  · unfold Buffer.Read
    rw [show b.readFromOffset dest b.offset = Except.ok (0, some ReadError.closed, dest) by
      unfold Buffer.readFromOffset; rw [if_pos hlen]]
    rfl
  · unfold Buffer.Write
    rw [if_pos hlen]

/-- C6 witness: a wrong-capacity slice against `pool5` and the freed
hello-world buffer. -/
theorem error_paths_no_side_effects_witness :
    pool5.Put none = (pool5, some PutError.nilValue) ∧
    pool5.Put (some ⟨0, [], 3⟩) = (pool5, some PutError.wrongCapacity) ∧
    NewBuffer none = Except.error "cannot pass nil to rebytes.NewBuffer()" ∧
    (bufHW.Free).ReadAt [1, 2] 4 = Except.ok (0, some ReadError.closed, [1, 2]) ∧
    (bufHW.Free).Read [1, 2] = Except.ok (bufHW.Free, 0, some ReadError.closed, [1, 2]) ∧
    (bufHW.Free).Write [1, 2] = Except.ok (bufHW.Free, 0, some WriteError.closed) :=
  error_paths_no_side_effects pool5 ⟨0, [], 3⟩ (bufHW.Free) [1, 2] 4
    (by decide) (by decide)

/-- C10: on a freed buffer (no chunks), `read` and `readAt` with a
zero-length destination still return the Closed error with count 0 — the
Closed check precedes the zero-length-destination shortcut of the loop. -/
theorem closed_precedes_empty_destination (b : Buffer) (dest : List Nat) (off : Nat)
    (hb : b.chunks = []) (hdest : dest.length = 0) :
    b.ReadAt dest off = Except.ok (0, some ReadError.closed, dest) ∧
    b.Read dest = Except.ok (b, 0, some ReadError.closed, dest) := by
  have hlen : b.chunks.length = 0 := by rw [hb]; rfl
  refine ⟨?_, ?_⟩
  · unfold Buffer.ReadAt Buffer.readFromOffset
    rw [if_pos hlen]
  · unfold Buffer.Read
    rw [show b.readFromOffset dest b.offset = Except.ok (0, some ReadError.closed, dest) by
      unfold Buffer.readFromOffset; rw [if_pos hlen]]
    rfl

/-- C10 witness: the freed hello-world buffer with an empty destination. -/
theorem closed_precedes_empty_destination_witness :
    (bufHW.Free).ReadAt [] 0 = Except.ok (0, some ReadError.closed, []) ∧
    (bufHW.Free).Read [] = Except.ok (bufHW.Free, 0, some ReadError.closed, []) :=
  closed_precedes_empty_destination (bufHW.Free) [] 0 (by decide) (by decide)

/-- C8: a successful `Read` leaves the chunk list (and hence every chunk's
content), the pool, and the chunk capacity unchanged, moving only the cursor
forward by the count read; `ReadAt` is a pure function of the buffer (it is
`readFromOffset`, which never writes to the receiver), so a `readAt` call
cannot perturb a subsequent sequential `read`. -/
theorem read_mutates_only_cursor (b b1 : Buffer) (dest q : List Nat)
    (n : Nat) (e : Option ReadError)
    (h : b.Read dest = Except.ok (b1, n, e, q)) :
    b1.chunks = b.chunks ∧ b1.pool = b.pool ∧ b1.chunkCap = b.chunkCap ∧
      b1.offset = b.offset + n := by
  unfold Buffer.Read at h
  cases hro : b.readFromOffset dest b.offset with
  | error e' => rw [hro] at h; exact absurd h (by simp)
  | ok r =>
      obtain ⟨n', e', q'⟩ := r
      rw [hro] at h
      simp only [Except.ok.injEq, Prod.mk.injEq] at h
      obtain ⟨hb1, hn, -, -⟩ := h
      subst hb1
      subst hn
      exact ⟨rfl, rfl, rfl, rfl⟩

/-- Ground evaluation: writing `"hello world"` into a fresh buffer over
`pool5` produces exactly `bufHW` — three chunks `"hello"`, `" worl"`, `"d"` —
reporting 11 bytes written and no error. -/
theorem freshBuf_Write_hw : freshBuf.Write hw = Except.ok (bufHW, 11, none) := by
  simp [freshBuf, pool5, NewBuffer, NewPool, Pool.Get, Buffer.Write,
    Buffer.writeLoop, Buffer.findWritableChunk, moveBytes, hw, bufHW]

/-- C8 witness: reading 3 bytes from the hello-world buffer moves only the
cursor. -/
theorem read_mutates_only_cursor_witness :
    bufHW.Read [0, 0, 0] =
      Except.ok ({ bufHW with offset := 3 }, 3, none, [104, 101, 108]) ∧
    ({ bufHW with offset := 3 } : Buffer).chunks = bufHW.chunks ∧
    ({ bufHW with offset := 3 } : Buffer).pool = bufHW.pool ∧
    ({ bufHW with offset := 3 } : Buffer).chunkCap = bufHW.chunkCap ∧
    ({ bufHW with offset := 3 } : Buffer).offset = bufHW.offset + 3 := by
  have heval : bufHW.Read [0, 0, 0] =
      Except.ok ({ bufHW with offset := 3 }, 3, none, [104, 101, 108]) := by
    simp [bufHW, Buffer.Read, Buffer.readFromOffset, Buffer.readLoop,
      Buffer.findReadLocation]
  obtain ⟨h1, h2, h3, h4⟩ := read_mutates_only_cursor bufHW _ _ _ _ _ heval
  exact ⟨heval, h1, h2, h3, h4⟩

/-- C5: `free()` returns every held chunk to the pool (the pool grows by one
idle slice per chunk whenever it has room for them) and leaves the buffer
with zero chunks; afterwards read, readAt, and write all fail with the
Closed error and change nothing, and a second `free()` is a no-op equal to
the first. -/
theorem free_returns_chunks_and_closes (b : Buffer) (dest : List Nat) (off : Nat)
    (hwf : ChunksWF b.chunkCap b.chunks)
    (hcapeq : b.pool.bytesCap = b.chunkCap)
    (hroom : b.pool.slices.length + b.chunks.length ≤ b.pool.poolCap) :
    (b.Free).pool.Size = b.pool.Size + b.Chunks ∧
    (b.Free).Chunks = 0 ∧
    (b.Free).Read dest = Except.ok (b.Free, 0, some ReadError.closed, dest) ∧
    (b.Free).ReadAt dest off = Except.ok (0, some ReadError.closed, dest) ∧
    (b.Free).Write dest = Except.ok (b.Free, 0, some WriteError.closed) ∧
    (b.Free).Free = b.Free := by
  have hcaps : ∀ c ∈ b.chunks, c.cap = b.pool.bytesCap := by
    intro c hc
    rw [hcapeq]
    exact chunksWF_mem_cap _ _ hwf c hc
  have hsz := foldl_put_size b.chunks b.pool hcaps hroom
  have hlen : (b.Free).chunks.length = 0 := rfl
  refine ⟨hsz, rfl, ?_, ?_, ?_, rfl⟩
  · unfold Buffer.Read
    rw [show (b.Free).readFromOffset dest (b.Free).offset =
        Except.ok (0, some ReadError.closed, dest) by
      unfold Buffer.readFromOffset; rw [if_pos hlen]]
    rfl
  · unfold Buffer.ReadAt Buffer.readFromOffset
    rw [if_pos hlen]
  · unfold Buffer.Write
    rw [if_pos hlen]

/-- C5 witness: freeing the hello-world buffer. -/
theorem free_returns_chunks_and_closes_witness :
    (bufHW.Free).pool.Size = bufHW.pool.Size + bufHW.Chunks ∧
    (bufHW.Free).Chunks = 0 ∧
    (bufHW.Free).Read [1] = Except.ok (bufHW.Free, 0, some ReadError.closed, [1]) ∧
    (bufHW.Free).ReadAt [1] 2 = Except.ok (0, some ReadError.closed, [1]) ∧
    (bufHW.Free).Write [1] = Except.ok (bufHW.Free, 0, some WriteError.closed) ∧
    (bufHW.Free).Free = bufHW.Free :=
  free_returns_chunks_and_closes bufHW [1] 2 (by decide) (by decide) (by decide)

/-! ## Content and chunk-addressing lemmas -/

/-- Unfolding of `chunksContent` over a cons. -/
theorem chunksContent_cons (c : Bytes) (l : List Bytes) :
    chunksContent (c :: l) = c.data ++ chunksContent l := rfl

/-- `getLastD` of a non-empty list ignores its default. -/
theorem getLastD_irrel {α : Type} (l : List α) (hl : l ≠ []) (a b : α) :
    l.getLastD a = l.getLastD b := by
  cases l with
  | nil => exact absurd rfl hl
  | cons x xs => rfl

/-- The last chunk of a well-formed chunk list has length at most `cap`. -/
theorem chunksWF_last_le (cap : Nat) (l : List Bytes) (h : ChunksWF cap l) :
    (l.getLastD default).data.length ≤ cap := by
  induction l with
  | nil => exact Nat.zero_le cap
  | cons c rest ih =>
      obtain ⟨-, h2, h3⟩ := h
      cases rest with
      | nil => simpa using h2
      | cons d ds =>
          rw [List.getLastD_cons, getLastD_irrel (d :: ds) (by simp) c default]
          exact ih h3

/-- `getD` at the final index is `getLastD`. -/
theorem getD_last_index {α : Type} [Inhabited α] (l : List α) (hl : l ≠ []) :
    l.getD (l.length - 1) default = l.getLastD default := by
  induction l with
  | nil => exact absurd rfl hl
  | cons c rest ih =>
      cases rest with
      | nil => rfl
      | cons d ds =>
          have hlen : (c :: d :: ds).length - 1 = (d :: ds).length := rfl
          rw [hlen, show (d :: ds).length = ((d :: ds).length - 1) + 1 from rfl,
            List.getD_cons_succ, ih (by simp)]
          simp [List.getLastD_cons]

/-- Total length of the content of a well-formed non-empty chunk list: all
chunks but the last are full. -/
theorem chunksContent_length (cap : Nat) (l : List Bytes) (hl : l ≠ [])
    (h : ChunksWF cap l) :
    (chunksContent l).length =
      (l.length - 1) * cap + (l.getLastD default).data.length := by
  induction l with
  | nil => exact absurd rfl hl
  | cons c rest ih =>
      obtain ⟨-, h2, h3⟩ := h
      cases rest with
      | nil => simp [chunksContent_cons, chunksContent]
      | cons d ds =>
          have hfull : c.data.length = cap := by simpa using h2
          have hrest := ih (by simp) h3
          rw [chunksContent_cons]
          simp only [List.length_append, hfull, hrest, List.getLastD_cons,
            List.length_cons, Nat.add_sub_cancel]
          ring

/-- Chunk addressing: in a well-formed chunk list every non-terminal chunk is
full, so the byte at logical offset `off` lives in chunk `off / cap` at
intra-chunk offset `off % cap`, and the data of that chunk from the
intra-chunk offset on is exactly the next stretch of the concatenated
content. -/
theorem chunks_addressing (cap : Nat) (hcap : 0 < cap) :
    ∀ (l : List Bytes), ChunksWF cap l →
    ∀ off, off < (chunksContent l).length →
      off / cap < l.length ∧
      off % cap < (l.getD (off / cap) default).data.length ∧
      (l.getD (off / cap) default).data.drop (off % cap) =
        ((chunksContent l).drop off).take
          ((l.getD (off / cap) default).data.length - off % cap) := by
  intro l
  induction l with
  | nil =>
      intro h off hoff
      simp [chunksContent] at hoff
  | cons c rest ih =>
      intro h off hoff
      obtain ⟨h1, h2, h3⟩ := h
      by_cases hco : off < cap
      · have hdiv : off / cap = 0 := Nat.div_eq_of_lt hco
        have hmod : off % cap = off := Nat.mod_eq_of_lt hco
        rw [hdiv, hmod, List.getD_cons_zero]
        cases rest with
        | nil =>
            have hcc : chunksContent [c] = c.data := by simp [chunksContent]
            rw [hcc] at hoff ⊢
            refine ⟨by simp, hoff, ?_⟩
            exact (List.take_of_length_le (le_of_eq (by simp))).symm
        | cons d ds =>
            have hfull : c.data.length = cap := by simpa using h2
            have hlt : off < c.data.length := by rw [hfull]; exact hco
            refine ⟨by simp, hlt, ?_⟩
            rw [chunksContent_cons, List.drop_append_of_le_length (by omega)]
            exact (List.take_left' (by simp)).symm
      · push_neg at hco
        cases rest with
        | nil =>
            exfalso
            have hc1 : (chunksContent [c]).length = c.data.length := by
              simp [chunksContent]
            have hle : c.data.length ≤ cap := by simpa using h2
            omega
        | cons d ds =>
            have hfull : c.data.length = cap := by simpa using h2
            have hsub : off - cap + cap = off := Nat.sub_add_cancel hco
            have hdiv : off / cap = (off - cap) / cap + 1 := by
              conv_lhs => rw [← hsub]
              rw [Nat.add_div_right _ hcap]
            have hmod : off % cap = (off - cap) % cap := by
              conv_lhs => rw [← hsub]
              rw [Nat.add_mod_right]
            have hoff' : off - cap < (chunksContent (d :: ds)).length := by
              rw [chunksContent_cons] at hoff
              simp only [List.length_append, hfull] at hoff
              omega
            obtain ⟨g1, g2, g3⟩ := ih h3 (off - cap) hoff'
            have hdropc : (chunksContent (c :: d :: ds)).drop off =
                (chunksContent (d :: ds)).drop (off - cap) := by
              conv_lhs =>
                rw [chunksContent_cons, show off = c.data.length + (off - cap) by omega,
                  List.drop_append]
            rw [hdiv, hmod, List.getD_cons_succ, hdropc]
            refine ⟨?_, g2, g3⟩
            simp only [List.length_cons] at g1 ⊢
            omega

/-- For offsets inside the written content, `findReadLocation` succeeds with
the quotient/remainder addressing. -/
theorem findReadLocation_in_range (b : Buffer) (hcap : 0 < b.chunkCap)
    (hwf : ChunksWF b.chunkCap b.chunks) (off : Nat)
    (hoff : off < (chunksContent b.chunks).length) :
    b.findReadLocation off =
      Except.ok (b.chunks.getD (off / b.chunkCap) default, off % b.chunkCap) := by
  obtain ⟨hidx, -, -⟩ := chunks_addressing b.chunkCap hcap b.chunks hwf off hoff
  unfold Buffer.findReadLocation
  rw [if_neg (by omega), dif_pos hidx]
  rw [List.get_eq_getElem, ← List.getD_eq_getElem b.chunks default hidx]

/-- At the exact end of the written content, when the last chunk is not
full, `findReadLocation` lands on the last chunk exactly at its length. -/
theorem findReadLocation_at_end_partial (b : Buffer) (hcap : 0 < b.chunkCap)
    (hne : b.chunks ≠ []) (hwf : ChunksWF b.chunkCap b.chunks)
    (hlast : (b.chunks.getLastD default).data.length < b.chunkCap) :
    b.findReadLocation (chunksContent b.chunks).length =
      Except.ok (b.chunks.getLastD default,
        (b.chunks.getLastD default).data.length) := by
  have hlen := chunksContent_length b.chunkCap b.chunks hne hwf
  have hdiv : (chunksContent b.chunks).length / b.chunkCap = b.chunks.length - 1 := by
    rw [hlen, Nat.mul_comm, Nat.mul_add_div hcap,
      Nat.div_eq_of_lt hlast, Nat.add_zero]
  have hmod : (chunksContent b.chunks).length % b.chunkCap =
      (b.chunks.getLastD default).data.length := by
    rw [hlen]
    conv_lhs => rw [Nat.mul_comm]
    rw [Nat.mul_add_mod, Nat.mod_eq_of_lt hlast]
  have hne' : 0 < b.chunks.length := List.length_pos.mpr hne
  have hidx : (chunksContent b.chunks).length / b.chunkCap < b.chunks.length := by
    rw [hdiv]; omega
  unfold Buffer.findReadLocation
  rw [if_neg (by omega), dif_pos hidx]
  simp only [List.get_eq_getElem, Except.ok.injEq, Prod.mk.injEq]
  constructor
  · rw [← List.getD_eq_getElem _ default hidx, hdiv, getD_last_index _ hne]
  · exact hmod

/-- At the exact end of the written content, when the last chunk is full,
`findReadLocation` indexes one past the last chunk: a Go index panic. -/
theorem findReadLocation_at_end_full (b : Buffer) (hcap : 0 < b.chunkCap)
    (hne : b.chunks ≠ []) (hwf : ChunksWF b.chunkCap b.chunks)
    (hlast : (b.chunks.getLastD default).data.length = b.chunkCap) :
    b.findReadLocation (chunksContent b.chunks).length =
      Except.error GoPanic.indexOutOfRange := by
  have hlen := chunksContent_length b.chunkCap b.chunks hne hwf
  have hne' : 0 < b.chunks.length := List.length_pos.mpr hne
  have hdiv : (chunksContent b.chunks).length / b.chunkCap = b.chunks.length := by
    rw [hlen, hlast, show (b.chunks.length - 1) * b.chunkCap + b.chunkCap =
        b.chunks.length * b.chunkCap by
      obtain ⟨k, hk⟩ : ∃ k, b.chunks.length = k + 1 := ⟨b.chunks.length - 1, by omega⟩
      rw [hk, Nat.add_sub_cancel, Nat.succ_mul]]
    exact Nat.mul_div_cancel _ hcap
  unfold Buffer.findReadLocation
  rw [if_neg (by omega), dif_neg (by omega)]

/-- `readLoop` when the destination is already full. -/
theorem readLoop_done (b : Buffer) (plen off n : Nat) (acc : List Nat)
    (h : plen ≤ n) :
    b.readLoop plen off n acc = Except.ok (n, none, acc) := by
  rw [Buffer.readLoop.eq_def, dif_neg (by omega)]

/-- `readLoop` when locating the chunk panics. -/
theorem readLoop_panic (b : Buffer) (plen off n : Nat) (acc : List Nat)
    (e : GoPanic) (h : n < plen)
    (hloc : b.findReadLocation off = Except.error e) :
    b.readLoop plen off n acc = Except.error e := by
  rw [Buffer.readLoop.eq_def, dif_pos h, hloc]

/-- `readLoop` when the intra-chunk offset sits exactly at the chunk length:
`io.EOF`. -/
theorem readLoop_eof (b : Buffer) (plen off n : Nat) (acc : List Nat)
    (s : Bytes) (i : Nat) (h : n < plen)
    (hloc : b.findReadLocation off = Except.ok (s, i))
    (hi : i = s.data.length) :
    b.readLoop plen off n acc = Except.ok (n, some ReadError.eof, acc) := by
  rw [Buffer.readLoop.eq_def, dif_pos h, hloc]
  simp only [if_pos hi]

/-- `readLoop` copy step: with bytes left in the chunk, copy the block and
continue. -/
theorem readLoop_step (b : Buffer) (plen off n : Nat) (acc : List Nat)
    (s : Bytes) (i : Nat) (h : n < plen)
    (hloc : b.findReadLocation off = Except.ok (s, i))
    (hi : i < s.data.length) :
    b.readLoop plen off n acc =
      b.readLoop plen (off + min (plen - n) (s.data.length - i))
        (n + min (plen - n) (s.data.length - i))
        (acc ++ (s.data.drop i).take (min (plen - n) (s.data.length - i))) := by
  rw [Buffer.readLoop.eq_def, dif_pos h, hloc]
  simp only [if_neg (by omega : ¬ i = s.data.length),
    if_neg (by omega : ¬ s.data.length < i)]

/-- Master specification of the read loop on a well-formed buffer, for any
start offset within the written content: if enough bytes remain the loop
delivers exactly the requested stretch of the content with no error; if the
content runs out first it delivers what is left and then reports `io.EOF`
when the last chunk is partial — but panics with an index-out-of-range when
the last chunk is exactly full, because the end-of-content offset then
addresses one chunk past the end. -/
theorem readLoop_spec (b : Buffer) (hcap : 0 < b.chunkCap) (hne : b.chunks ≠ [])
    (hwf : ChunksWF b.chunkCap b.chunks) :
    ∀ k plen n off acc, plen - n = k →
      off ≤ (chunksContent b.chunks).length →
      b.readLoop plen off n acc =
        (if plen - n ≤ (chunksContent b.chunks).length - off then
          Except.ok (max plen n, none,
            acc ++ ((chunksContent b.chunks).drop off).take (plen - n))
        else if (b.chunks.getLastD default).data.length < b.chunkCap then
          Except.ok (n + ((chunksContent b.chunks).length - off),
            some ReadError.eof, acc ++ (chunksContent b.chunks).drop off)
        else Except.error GoPanic.indexOutOfRange) := by
  intro k
  induction k using Nat.strong_induction_on with
  | _ k IH =>
    intro plen n off acc hk hoff
    by_cases hn : n < plen
    · by_cases hend : off < (chunksContent b.chunks).length
      · obtain ⟨hidx, hi, hdropEq⟩ :=
          chunks_addressing b.chunkCap hcap b.chunks hwf off hend
        have hloc := findReadLocation_in_range b hcap hwf off hend
        rw [readLoop_step b plen off n acc _ _ hn hloc hi]
        have hlenEq :
            (b.chunks.getD (off / b.chunkCap) default).data.length - off % b.chunkCap ≤
            (chunksContent b.chunks).length - off := by
          have hlen := congrArg List.length hdropEq
          simp only [List.length_drop, List.length_take] at hlen
          omega
        set L := chunksContent b.chunks with hL
        set s := b.chunks.getD (off / b.chunkCap) default with hs
        set i := off % b.chunkCap with hi2
        set x := min (plen - n) (s.data.length - i) with hx
        have hx1 : 1 ≤ x := by omega
        have hxle1 : x ≤ plen - n := by omega
        have hxle2 : x ≤ L.length - off := by omega
        have hoff2 : off + x ≤ L.length := by omega
        rw [IH (plen - (n + x)) (by omega) plen (n + x) (off + x) _ rfl hoff2]
        have hseg : (s.data.drop i).take x = (L.drop off).take x := by
          rw [hdropEq, List.take_take, Nat.min_eq_left (by omega)]
        by_cases hfits : plen - n ≤ L.length - off
        · rw [if_pos (by omega : plen - (n + x) ≤ L.length - (off + x)), if_pos hfits]
          have hmax : max plen (n + x) = max plen n := by omega
          have hlist : (acc ++ (s.data.drop i).take x) ++
              (L.drop (off + x)).take (plen - (n + x)) =
              acc ++ (L.drop off).take (plen - n) := by
            rw [hseg, List.append_assoc]
            congr 1
            rw [show L.drop (off + x) = (L.drop off).drop x from by rw [List.drop_drop]]
            rw [← List.take_add]
            congr 1
            omega
          rw [hmax, hlist]
        · rw [if_neg (by omega : ¬ plen - (n + x) ≤ L.length - (off + x)),
            if_neg hfits]
          by_cases hlast : (b.chunks.getLastD default).data.length < b.chunkCap
          · rw [if_pos hlast, if_pos hlast]
            have hcount : n + x + (L.length - (off + x)) = n + (L.length - off) := by
              omega
            have hlist2 : (acc ++ (s.data.drop i).take x) ++ L.drop (off + x) =
                acc ++ L.drop off := by
              rw [hseg, List.append_assoc]
              congr 1
              rw [show L.drop (off + x) = (L.drop off).drop x from by
                rw [List.drop_drop]]
              exact List.take_append_drop x (L.drop off)
            rw [hcount, hlist2]
          · rw [if_neg hlast, if_neg hlast]
      · have hoffeq : off = (chunksContent b.chunks).length := by omega
        subst hoffeq
        by_cases hlast : (b.chunks.getLastD default).data.length < b.chunkCap
        · have hloc := findReadLocation_at_end_partial b hcap hne hwf hlast
          rw [readLoop_eof b plen _ n acc _ _ hn hloc rfl]
          rw [if_neg (by omega), if_pos hlast]
          simp [List.drop_length]
        · have hlast' : (b.chunks.getLastD default).data.length = b.chunkCap := by
            have := chunksWF_last_le b.chunkCap b.chunks hwf
            omega
          have hloc := findReadLocation_at_end_full b hcap hne hwf hlast'
          rw [readLoop_panic b plen _ n acc _ hn hloc]
          rw [if_neg (by omega), if_neg hlast]
    · rw [readLoop_done b plen off n acc (by omega)]
      rw [if_pos (by omega), show plen - n = 0 by omega]
      simp [Nat.max_eq_right (by omega : plen ≤ n)]

/-- Specification of `readFromOffset` on a well-formed Active buffer, for
any start offset within the written content. -/
theorem readFromOffset_spec (b : Buffer) (hcap : 0 < b.chunkCap)
    (hne : b.chunks ≠ []) (hwf : ChunksWF b.chunkCap b.chunks)
    (p : List Nat) (off : Nat)
    (hoff : off ≤ (chunksContent b.chunks).length) :
    b.readFromOffset p off =
      (if p.length ≤ (chunksContent b.chunks).length - off then
        Except.ok (p.length, none,
          ((chunksContent b.chunks).drop off).take p.length ++
            p.drop p.length)
      else if (b.chunks.getLastD default).data.length < b.chunkCap then
        Except.ok ((chunksContent b.chunks).length - off, some ReadError.eof,
          (chunksContent b.chunks).drop off ++
            p.drop ((chunksContent b.chunks).length - off))
      else Except.error GoPanic.indexOutOfRange) := by
  have hlen0 : ¬ b.chunks.length = 0 := by
    simpa [List.length_eq_zero] using hne
  unfold Buffer.readFromOffset
  rw [if_neg hlen0]
  rw [readLoop_spec b hcap hne hwf (p.length - 0) p.length 0 off [] rfl hoff]
  by_cases hfits : p.length ≤ (chunksContent b.chunks).length - off
  · rw [if_pos (by omega : p.length - 0 ≤ (chunksContent b.chunks).length - off),
      if_pos hfits]
    have hacclen : (((chunksContent b.chunks).drop off).take (p.length - 0)).length =
        p.length := by
      simp only [List.length_take, List.length_drop]
      omega
    simp [hacclen]
    omega
  · rw [if_neg (by omega : ¬ p.length - 0 ≤ (chunksContent b.chunks).length - off),
      if_neg hfits]
    by_cases hlast : (b.chunks.getLastD default).data.length < b.chunkCap
    · rw [if_pos hlast, if_pos hlast]
      simp [List.length_drop]
    · rw [if_neg hlast, if_neg hlast]

/-! ## Claim theorems: reading -/

/-- C2 (amended): on a well-formed Active buffer, `read` copies exactly
`min (available bytes after the cursor, len destination)` bytes starting at
the cursor into the destination and advances the cursor by that count; it
returns `EndOfData` if and only if fewer bytes were available than
`len destination` with `len destination > 0`, and a zero-length destination
returns count 0 with no error — provided that, when fewer bytes are
available than requested, the buffer's last chunk is not full (when it is
full, the loop faults instead of reporting `EndOfData`; see the
counterexample). -/
theorem read_copies_min_and_advances (b : Buffer) (dest : List Nat)
    (hwf : b.WF)
    (hsafe : b.String.length - b.offset < dest.length →
      (b.chunks.getLastD default).data.length < b.chunkCap) :
    b.Read dest = Except.ok
      ({ b with offset := b.offset + min (b.String.length - b.offset) dest.length },
       min (b.String.length - b.offset) dest.length,
       (if dest.length = 0 ∨ dest.length ≤ b.String.length - b.offset then
          (none : Option ReadError)
        else some ReadError.eof),
       (b.String.drop b.offset).take dest.length ++
         dest.drop (min (b.String.length - b.offset) dest.length)) := by
  obtain ⟨hcap, hne, hchunks, hpool, hbc, hofl⟩ := hwf
  simp only [Buffer.String] at hsafe ⊢
  unfold Buffer.Read
  rw [readFromOffset_spec b hcap hne hchunks dest b.offset hofl]
  by_cases hfits : dest.length ≤ (chunksContent b.chunks).length - b.offset
  · rw [if_pos hfits]
    have hmin : min ((chunksContent b.chunks).length - b.offset) dest.length =
        dest.length := Nat.min_eq_right hfits
    rw [hmin, if_pos (Or.inr hfits)]
  · rw [if_neg hfits, if_pos (hsafe (by omega))]
    have hmin : min ((chunksContent b.chunks).length - b.offset) dest.length =
        (chunksContent b.chunks).length - b.offset := Nat.min_eq_left (by omega)
    rw [hmin, if_neg (by omega)]
    have htake : ((chunksContent b.chunks).drop b.offset).take dest.length =
        (chunksContent b.chunks).drop b.offset :=
      List.take_of_length_le (by simp [List.length_drop]; omega)
    rw [htake]

/-- C2 witness: reading 3 of the 11 available bytes of the hello-world
buffer. -/
theorem read_copies_min_and_advances_witness :
    bufHW.Read [9, 9, 9] = Except.ok
      ({ bufHW with
          offset := bufHW.offset +
            min (bufHW.String.length - bufHW.offset) ([9, 9, 9] : List Nat).length },
       min (bufHW.String.length - bufHW.offset) ([9, 9, 9] : List Nat).length,
       (if ([9, 9, 9] : List Nat).length = 0 ∨
          ([9, 9, 9] : List Nat).length ≤ bufHW.String.length - bufHW.offset then
          (none : Option ReadError)
        else some ReadError.eof),
       (bufHW.String.drop bufHW.offset).take ([9, 9, 9] : List Nat).length ++
         ([9, 9, 9] : List Nat).drop
           (min (bufHW.String.length - bufHW.offset) ([9, 9, 9] : List Nat).length)) :=
  read_copies_min_and_advances bufHW [9, 9, 9] (by decide) (by decide)

/-- C2 counterexample: after writing exactly 5 bytes (one completely full
chunk), a read asking for 6 bytes does not return the 5 available bytes with
`EndOfData` — it panics with an index-out-of-range, because the end-of-data
offset 5 addresses chunk 5/5 = 1 of a 1-chunk buffer.  The buffer is built
by the API and satisfies the buffer invariant. -/
theorem read_full_tail_cex :
    freshBuf.Write [1, 2, 3, 4, 5] = Except.ok (buf5, 5, none) ∧
    buf5.WF ∧
    buf5.Read [0, 0, 0, 0, 0, 0] = Except.error GoPanic.indexOutOfRange := by
  refine ⟨?_, by decide, ?_⟩
  · simp [freshBuf, pool5, NewBuffer, NewPool, Pool.Get, Buffer.Write,
      Buffer.writeLoop, Buffer.findWritableChunk, moveBytes, buf5]
  · simp [buf5, Buffer.Read, Buffer.readFromOffset, Buffer.readLoop,
      Buffer.findReadLocation]

/-- C1 (amended): on a well-formed Active buffer, `readAt` locates data by
`chunkIndex = offset / chunkCapacity` and `intraOffset = offset %
chunkCapacity` for every offset inside the written data; and when the last
chunk is not full, a `readAt` at the offset just past the last written byte
returns count 0 with `EndOfData` and an untouched destination.  (Offsets
strictly beyond that fault instead of returning `EndOfData`; see the
counterexample.) -/
theorem readAt_addressing_and_past_end (b : Buffer) (dest : List Nat) (off : Nat)
    (hwf : b.WF) (hoff : off < b.String.length)
    (hlast : (b.chunks.getLastD default).data.length < b.chunkCap)
    (hdest : dest ≠ []) :
    b.findReadLocation off =
      Except.ok (b.chunks.getD (off / b.chunkCap) default, off % b.chunkCap) ∧
    b.ReadAt dest b.String.length = Except.ok (0, some ReadError.eof, dest) := by
  obtain ⟨hcap, hne, hchunks, hpool, hbc, hofl⟩ := hwf
  simp only [Buffer.String] at hoff ⊢
  refine ⟨findReadLocation_in_range b hcap hchunks off hoff, ?_⟩
  unfold Buffer.ReadAt
  rw [readFromOffset_spec b hcap hne hchunks dest (chunksContent b.chunks).length
    (le_refl _)]
  rw [if_neg (by
    simp only [Nat.sub_self, Nat.le_zero, List.length_eq_zero]
    exact hdest)]
  rw [if_pos hlast]
  simp [List.drop_length]

/-- C1 witness: the hello-world buffer, offset 7 for the addressing part and
offset 11 (= total written length) for the `EndOfData` part. -/
theorem readAt_addressing_and_past_end_witness :
    bufHW.findReadLocation 7 =
      Except.ok (bufHW.chunks.getD (7 / bufHW.chunkCap) default, 7 % bufHW.chunkCap) ∧
    bufHW.ReadAt [0] bufHW.String.length =
      Except.ok (0, some ReadError.eof, [0]) :=
  readAt_addressing_and_past_end bufHW [0] 7 (by decide) (by decide)
    (by decide) (by decide)

/-- C1 counterexample: in the hello-world buffer (11 bytes written), the
offset 12 lands past the last written byte, yet `readAt` does not return
`EndOfData`: it panics with a Go slice-bounds error (`(*s)[2:]` on the
1-byte chunk `"d"`); at offset 15 it panics with an index-out-of-range. -/
theorem readAt_past_end_cex :
    freshBuf.Write hw = Except.ok (bufHW, 11, none) ∧
    bufHW.String.length = 11 ∧
    bufHW.ReadAt [0] 12 = Except.error GoPanic.sliceBounds ∧
    bufHW.ReadAt [0] 15 = Except.error GoPanic.indexOutOfRange := by
  refine ⟨freshBuf_Write_hw, by decide, ?_, ?_⟩
  · simp [bufHW, Buffer.ReadAt, Buffer.readFromOffset, Buffer.readLoop,
      Buffer.findReadLocation]
  · simp [bufHW, Buffer.ReadAt, Buffer.readFromOffset, Buffer.readLoop,
      Buffer.findReadLocation]

/-! ## Write lemmas -/

/-- `getLast` of a non-empty list agrees with `getLastD`. -/
theorem getLast_eq_getLastD {α : Type} [Inhabited α] (l : List α) (h : l ≠ []) :
    l.getLast h = l.getLastD default := by
  rw [List.getLastD_eq_getLast?, List.getLast?_eq_getLast l h]
  rfl

/-- `getLastD` of a list with an element appended. -/
theorem getLastD_concat {α : Type} (l : List α) (s d : α) :
    (l ++ [s]).getLastD d = s := by
  rw [List.getLastD_eq_getLast?, List.getLast?_concat]
  rfl

/-- The `getLastD` of a non-empty list is one of its elements. -/
theorem getLastD_mem {α : Type} [Inhabited α] (l : List α) (h : l ≠ []) :
    l.getLastD default ∈ l := by
  rw [← getLast_eq_getLastD l h]
  exact List.getLast_mem h

/-- Content of a chunk list with one chunk appended. -/
theorem chunksContent_concat (l : List Bytes) (w : Bytes) :
    chunksContent (l ++ [w]) = chunksContent l ++ w.data := by
  simp [chunksContent]

/-- Content of a non-empty chunk list, split off its last chunk. -/
theorem chunksContent_eq_dropLast (l : List Bytes) (hne : l ≠ []) :
    chunksContent l =
      chunksContent l.dropLast ++ (l.getLastD default).data := by
  conv_lhs => rw [← List.dropLast_append_getLast hne]
  rw [chunksContent_concat, getLast_eq_getLastD l hne]

/-- Appending a chunk to a well-formed chunk list whose last chunk is full
keeps the list well-formed. -/
theorem chunksWF_append (cap : Nat) (l : List Bytes) (s : Bytes)
    (h : ChunksWF cap l)
    (hlast : l ≠ [] → (l.getLastD default).data.length = cap)
    (hs1 : s.data.length ≤ cap) (hs2 : s.cap = cap) :
    ChunksWF cap (l ++ [s]) := by
  induction l with
  | nil => exact ⟨hs2, by simpa using hs1, trivial⟩
  | cons c rest ih =>
      obtain ⟨h1, h2, h3⟩ := h
      refine ⟨h1, ?_, ?_⟩
      · cases rest with
        | nil =>
            simpa using hlast (by simp)
        | cons d ds =>
            simpa using h2
      · refine ih h3 ?_
        intro hrest
        have := hlast (by simp)
        rwa [List.getLastD_cons, getLastD_irrel rest hrest c default] at this

/-- Replacing the last chunk of a well-formed chunk list with a chunk of the
right capacity and a length within capacity keeps the list well-formed. -/
theorem chunksWF_update_last (cap : Nat) (l : List Bytes) (w : Bytes)
    (h : ChunksWF cap l) (hne : l ≠ [])
    (hw1 : w.data.length ≤ cap) (hw2 : w.cap = cap) :
    ChunksWF cap (l.dropLast ++ [w]) := by
  induction l with
  | nil => exact absurd rfl hne
  | cons c rest ih =>
      obtain ⟨h1, h2, h3⟩ := h
      cases rest with
      | nil => exact ⟨hw2, by simpa using hw1, trivial⟩
      | cons d ds =>
          refine ⟨h1, ?_, ih h3 (by simp)⟩
          have hfull : c.data.length = cap := by simpa using h2
          simp [hfull]

/-- `moveBytes` on a non-empty source and a destination with free capacity. -/
theorem moveBytes_ok (dst : Bytes) (src : List Nat)
    (h1 : ¬ src.length = 0) (h2 : ¬ dst.cap - dst.data.length = 0) :
    moveBytes dst src = Except.ok
      ({ dst with
          data := dst.data ++ src.take (min src.length (dst.cap - dst.data.length)) },
       src.drop (min src.length (dst.cap - dst.data.length)),
       min src.length (dst.cap - dst.data.length)) := by
  unfold moveBytes
  rw [if_neg h1, if_neg h2]

/-- `findWritableChunk` when the tail chunk is full: borrow a chunk from the
pool and append it. -/
theorem findWritableChunk_full (b : Buffer) (hne : b.chunks ≠ [])
    (h : (b.chunks.getLastD default).cap -
      (b.chunks.getLastD default).data.length = 0) :
    b.findWritableChunk = Except.ok
      { b with pool := (b.pool.Get).2, chunks := b.chunks ++ [(b.pool.Get).1] } := by
  unfold Buffer.findWritableChunk
  rw [List.getLast?_eq_getLast b.chunks hne]
  simp only [getLast_eq_getLastD b.chunks hne]
  rw [if_pos h]

/-- `findWritableChunk` when the tail chunk still has free capacity. -/
theorem findWritableChunk_notfull (b : Buffer) (hne : b.chunks ≠ [])
    (h : ¬ (b.chunks.getLastD default).cap -
      (b.chunks.getLastD default).data.length = 0) :
    b.findWritableChunk = Except.ok b := by
  unfold Buffer.findWritableChunk
  rw [List.getLast?_eq_getLast b.chunks hne]
  simp only [getLast_eq_getLastD b.chunks hne]
  rw [if_neg h]

/-- One iteration of the write loop. -/
theorem writeLoop_step (b : Buffer) (p : List Nat) (n : Nat) (h : 0 < p.length)
    (b1 : Buffer) (hfw : b.findWritableChunk = Except.ok b1)
    (w : Bytes) (p1 : List Nat) (x : Nat)
    (hmv : moveBytes (b1.chunks.getLastD default) p = Except.ok (w, p1, x)) :
    b.writeLoop p n =
      ({ b1 with chunks := b1.chunks.dropLast ++ [w] }).writeLoop p1 (n + x) := by
  rw [Buffer.writeLoop.eq_def, dif_pos h, hfw]
  split
  · next e heq => exact absurd heq (by simp)
  · next b1' heq =>
      injection heq with heq1
      subst heq1
      split
      · next e heq2 =>
          rw [hmv] at heq2
          exact absurd heq2 (by simp)
      · next w' p' x' heq2 =>
          rw [hmv] at heq2
          injection heq2 with heq3
          injection heq3 with hw heq4
          injection heq4 with hp hx
          subst hw
          subst hp
          subst hx
          rfl

/-- The write loop with no source bytes left. -/
theorem writeLoop_done (b : Buffer) (p : List Nat) (n : Nat)
    (h : ¬ 0 < p.length) :
    b.writeLoop p n = Except.ok (b, n) := by
  rw [Buffer.writeLoop.eq_def, dif_neg h]

/-- One full iteration of the write loop on a well-formed buffer: at least
one byte moves into the (possibly freshly borrowed) tail chunk, and every
invariant survives. -/
theorem writeLoop_one (b : Buffer) (p : List Nat) (n : Nat) (hp : 0 < p.length)
    (hcap : 0 < b.chunkCap) (hne : b.chunks ≠ [])
    (hwf : ChunksWF b.chunkCap b.chunks)
    (hpool : PoolWF b.pool) (hbc : b.pool.bytesCap = b.chunkCap) :
    ∃ (b2 : Buffer) (x : Nat), 1 ≤ x ∧ x ≤ p.length ∧
      b.writeLoop p n = b2.writeLoop (p.drop x) (n + x) ∧
      chunksContent b2.chunks = chunksContent b.chunks ++ p.take x ∧
      b2.chunkCap = b.chunkCap ∧ b2.offset = b.offset ∧ b2.chunks ≠ [] ∧
      ChunksWF b2.chunkCap b2.chunks ∧ PoolWF b2.pool ∧
      b2.pool.bytesCap = b2.chunkCap ∧ b2.pool.poolCap = b.pool.poolCap := by
  have hwcap : (b.chunks.getLastD default).cap = b.chunkCap :=
    chunksWF_mem_cap _ _ hwf _ (getLastD_mem _ hne)
  have hwlen := chunksWF_last_le b.chunkCap b.chunks hwf
  by_cases hfree : (b.chunks.getLastD default).cap -
      (b.chunks.getLastD default).data.length = 0
  · -- tail chunk full: borrow a chunk from the pool
    obtain ⟨hg1, hg2, hg3, hg4, hg5⟩ := Pool_Get_spec b.pool hpool
    have hfl : (b.pool.Get).1.data.length = 0 := by rw [hg1]; rfl
    have hfc : (b.pool.Get).1.cap = b.chunkCap := by rw [hg2, hbc]
    have hfw := findWritableChunk_full b hne hfree
    have hmv2 : moveBytes ((b.chunks ++ [(b.pool.Get).1]).getLastD default) p =
        Except.ok
          ({ (b.pool.Get).1 with
              data := (b.pool.Get).1.data ++
                p.take (min p.length ((b.pool.Get).1.cap - (b.pool.Get).1.data.length)) },
           p.drop (min p.length ((b.pool.Get).1.cap - (b.pool.Get).1.data.length)),
           min p.length ((b.pool.Get).1.cap - (b.pool.Get).1.data.length)) := by
      rw [getLastD_concat]
      exact moveBytes_ok _ p (by omega) (by omega)
    refine ⟨{ b with
        pool := (b.pool.Get).2
        chunks := b.chunks ++
          [{ (b.pool.Get).1 with
              data := (b.pool.Get).1.data ++
                p.take (min p.length
                  ((b.pool.Get).1.cap - (b.pool.Get).1.data.length)) }] },
      min p.length ((b.pool.Get).1.cap - (b.pool.Get).1.data.length),
      by omega, by omega, ?_, ?_, rfl, rfl, by simp, ?_, hg3, ?_, hg5⟩
    · rw [writeLoop_step b p n hp _ hfw _ _ _ hmv2]
      congr 1
      simp [List.dropLast_concat]
    · rw [chunksContent_concat]
      simp [hg1]
    · refine chunksWF_append b.chunkCap b.chunks _ hwf (fun _ => by omega) ?_ hfc
      simp only [hg1, List.nil_append, List.length_take]
      omega
    · rw [hg4, hbc]
  · -- tail chunk has room: write into it in place
    have hfw := findWritableChunk_notfull b hne hfree
    have hmv2 : moveBytes (b.chunks.getLastD default) p =
        Except.ok
          ({ b.chunks.getLastD default with
              data := (b.chunks.getLastD default).data ++
                p.take (min p.length ((b.chunks.getLastD default).cap -
                  (b.chunks.getLastD default).data.length)) },
           p.drop (min p.length ((b.chunks.getLastD default).cap -
             (b.chunks.getLastD default).data.length)),
           min p.length ((b.chunks.getLastD default).cap -
             (b.chunks.getLastD default).data.length)) :=
      moveBytes_ok _ p (by omega) hfree
    refine ⟨{ b with chunks := b.chunks.dropLast ++
              [{ b.chunks.getLastD default with
                  data := (b.chunks.getLastD default).data ++
                    p.take (min p.length ((b.chunks.getLastD default).cap -
                      (b.chunks.getLastD default).data.length)) }] },
            min p.length ((b.chunks.getLastD default).cap -
              (b.chunks.getLastD default).data.length),
            by omega, by omega, ?_, ?_, rfl, rfl, by simp, ?_, hpool, hbc, rfl⟩
    · rw [writeLoop_step b p n hp _ hfw _ _ _ hmv2]
    · rw [chunksContent_concat]
      conv_rhs => rw [chunksContent_eq_dropLast b.chunks hne]
      rw [List.append_assoc]
    · refine chunksWF_update_last b.chunkCap b.chunks _ hwf hne ?_ hwcap
      simp only [List.length_append, List.length_take]
      omega

/-- Master specification of the write loop: on a well-formed buffer the loop
always succeeds, consumes the whole source, appends it to the content, and
preserves every invariant. -/
theorem writeLoop_spec :
    ∀ k (b : Buffer) (p : List Nat) (n : Nat), p.length = k →
      0 < b.chunkCap → b.chunks ≠ [] → ChunksWF b.chunkCap b.chunks →
      PoolWF b.pool → b.pool.bytesCap = b.chunkCap →
      ∃ b1, b.writeLoop p n = Except.ok (b1, n + p.length) ∧
        chunksContent b1.chunks = chunksContent b.chunks ++ p ∧
        b1.chunkCap = b.chunkCap ∧ b1.offset = b.offset ∧
        b1.chunks ≠ [] ∧ ChunksWF b1.chunkCap b1.chunks ∧
        PoolWF b1.pool ∧ b1.pool.bytesCap = b1.chunkCap ∧
        b1.pool.poolCap = b.pool.poolCap := by
  intro k
  induction k using Nat.strong_induction_on with
  | _ k IH =>
    intro b p n hk hcap hne hwf hpool hbc
    by_cases hp : 0 < p.length
    · obtain ⟨b2, x, hx1, hx2, hstep, hcontent, hcc, hoff2, hne2, hwf2, hpool2,
        hbc2, hpc2⟩ := writeLoop_one b p n hp hcap hne hwf hpool hbc
      obtain ⟨b3, heq3, hcontent3, hcc3, hoff3, hne3, hwf3, hpool3, hbc3, hpc3⟩ :=
        IH (p.length - x) (by omega) b2 (p.drop x) (n + x)
          (by simp [List.length_drop])
          (by rw [hcc]; exact hcap) hne2 hwf2 hpool2 (by rw [hbc2, hcc])
      refine ⟨b3, ?_, ?_, hcc3.trans hcc, hoff3.trans hoff2, hne3, hwf3,
        hpool3, hbc3, hpc3.trans hpc2⟩
      · rw [hstep, heq3]
        simp only [List.length_drop]
        congr 2
        omega
      · rw [hcontent3, hcontent, List.append_assoc]
        congr 1
        exact List.take_append_drop x p
    · rw [writeLoop_done b p n hp]
      have hp0 : p = [] := by
        rw [← List.length_eq_zero]
        omega
      subst hp0
      exact ⟨b, by simp, by simp, rfl, rfl, hne, hwf, hpool, hbc, rfl⟩

/-! ## Claim theorems: writing -/

/-- C3: on a well-formed Active buffer (built from a pool with a positive
item capacity), `write(data)` consumes all of `data`, returns its length
with no error, appends `data` to the snapshot, and preserves the buffer
invariant — growth happens by appending pool chunks.  Concretely, writing
the 11-byte `"hello world"` into a fresh buffer with `chunkCapacity = 5`
leaves `chunkCount() = 3`. -/
theorem write_consumes_all_and_appends (b : Buffer) (data : List Nat)
    (hwf : b.WF) :
    (∃ b1, b.Write data = Except.ok (b1, data.length, none) ∧
      b1.String = b.String ++ data ∧ b1.WF ∧
      b1.offset = b.offset ∧ b1.chunkCap = b.chunkCap) ∧
    freshBuf.Write hw = Except.ok (bufHW, 11, none) ∧ bufHW.Chunks = 3 := by
  obtain ⟨hcap, hne, hchunks, hpool, hbc, hofl⟩ := hwf
  have hlen0 : ¬ b.chunks.length = 0 := by
    simpa [List.length_eq_zero] using hne
  obtain ⟨b1, heq, hcontent, hcc, hoff1, hne1, hwf1, hpool1, hbc1, hpc1⟩ :=
    writeLoop_spec data.length b data 0 rfl hcap hne hchunks hpool hbc
  refine ⟨⟨b1, ?_, ?_, ?_, hoff1, hcc⟩, freshBuf_Write_hw, by decide⟩
  · unfold Buffer.Write
    rw [if_neg hlen0, heq]
    simp
  · show chunksContent b1.chunks = chunksContent b.chunks ++ data
    exact hcontent
  · refine ⟨by rw [hcc]; exact hcap, hne1, hwf1, hpool1, hbc1, ?_⟩
    rw [hoff1]
    show b.offset ≤ (chunksContent b1.chunks).length
    rw [hcontent]
    simp only [List.length_append]
    have hofl' : b.offset ≤ (chunksContent b.chunks).length := hofl
    omega

/-- C3 witness: the general part applied at `freshBuf` with two bytes, and
the concrete hello-world facts. -/
theorem write_consumes_all_and_appends_witness :
    (∃ b1, freshBuf.Write [7, 8] =
        Except.ok (b1, ([7, 8] : List Nat).length, none) ∧
      b1.String = freshBuf.String ++ [7, 8] ∧ b1.WF ∧
      b1.offset = freshBuf.offset ∧ b1.chunkCap = freshBuf.chunkCap) ∧
    freshBuf.Write hw = Except.ok (bufHW, 11, none) ∧ bufHW.Chunks = 3 :=
  write_consumes_all_and_appends freshBuf [7, 8] (by decide)

/-- C9: a buffer constructed from a pool with item capacity 0 panics with
`ErrTooLarge` on any write of non-empty data: `findWritableChunk` appends a
zero-capacity chunk that can never accept a byte, and `moveBytes` then hits
its no-remaining-capacity abort.  Conversely the abort is unreachable for
well-formed buffers (positive chunk capacity): their writes always
succeed. -/
theorem zero_capacity_write_panics (poolCap : Nat) (d : Nat) (ds : List Nat)
    (b : Buffer) (hb : NewBuffer (some (NewPool 0 poolCap)) = Except.ok b)
    (bw : Buffer) (q : List Nat) (hwf : bw.WF) :
    b.Write (d :: ds) = Except.error GoPanic.tooLarge ∧
    ∃ b1, bw.Write q = Except.ok (b1, q.length, none) := by
  constructor
  · have h0 : NewBuffer (some (NewPool 0 poolCap)) =
        Except.ok ({
          pool := { slices := [], bytesCap := 0, poolCap := poolCap, nextId := 1 }
          offset := 0
          chunks := [⟨0, [], 0⟩]
          chunkCap := 0 } : Buffer) := rfl
    rw [h0] at hb
    injection hb with hb1
    subst hb1
    simp [Buffer.Write, Buffer.writeLoop, Buffer.findWritableChunk, moveBytes,
      Pool.Get]
  · obtain ⟨hcap, hne, hchunks, hpool, hbc, hofl⟩ := hwf
    have hlen0 : ¬ bw.chunks.length = 0 := by
      simpa [List.length_eq_zero] using hne
    obtain ⟨b1, heq, -, -, -, -, -, -, -⟩ :=
      writeLoop_spec q.length bw q 0 rfl hcap hne hchunks hpool hbc
    refine ⟨b1, ?_⟩
    unfold Buffer.Write
    rw [if_neg hlen0, heq]
    simp

/-- C9 witness: the zero-capacity buffer `buf0` and the well-formed
`freshBuf`. -/
theorem zero_capacity_write_panics_witness :
    buf0.Write [7] = Except.error GoPanic.tooLarge ∧
    ∃ b1, freshBuf.Write [3, 4] =
      Except.ok (b1, ([3, 4] : List Nat).length, none) :=
  zero_capacity_write_panics 10 7 [] buf0 rfl freshBuf [3, 4] (by decide)
